import Mathlib

/-!
Shallow embedding of the portal interaction core of `src/nfd_portal.cpp`
(nativefiledialog-extended, portal backend).

C strings are modelled as `List Char` of non-NUL bytes; where a buffer
genuinely contains NUL separators (the Windows filter DSL, the packed
multi-path output) the NUL byte appears in the list as `nul`.  Machine
bytes are `Nat` values below 256.
-/

namespace NfdPortal

/-- The NUL byte, used as C-string terminator/separator in packed buffers. -/
def nul : Char := Char.ofNat 0

/-- C `isalpha` in the default locale: ASCII letters only. -/
def isalpha (c : Char) : Bool :=
  ('a' ≤ c && c ≤ 'z') || ('A' ≤ c && c ≤ 'Z')

/-- C `tolower` in the default locale (ASCII). -/
def tolower (c : Char) : Char :=
  if 'A' ≤ c && c ≤ 'Z' then Char.ofNat (c.toNat + 32) else c

/-- C `toupper` in the default locale (ASCII). -/
def toupper (c : Char) : Char :=
  if 'a' ≤ c && c ≤ 'z' then Char.ofNat (c.toNat - 32) else c

/-- `genCaseSensitivePattern` (nfd_portal.cpp:126-138): wraps every
alphabetic character `c` of the range into `[`, `tolower c`, `toupper c`,
`]`; all other characters are copied unchanged. -/
def genCaseSensitivePattern : List Char → List Char
  | [] => []
  | c :: rest =>
    (if isalpha c then ['[', tolower c, toupper c, ']'] else [c]) ++
      genCaseSensitivePattern rest

theorem dropWhile_length_le {α : Type} (p : α → Bool) (l : List α) :
    (l.dropWhile p).length ≤ l.length := by
  induction l with
  | nil => simp [List.dropWhile]
  | cons c rest ih =>
    simp only [List.dropWhile]
    cases p c <;> simp <;> omega

theorem isPrefixOf_append_self (l t : List Char) : l.isPrefixOf (l ++ t) = true := by
  induction l with
  | nil => simp [List.isPrefixOf]
  | cons c l1 ih =>
    simp [List.isPrefixOf, ih]

/-- The separator-splitting loop shared by `AppendSingleFilter` (`;` on
Windows-style patterns, nfd_portal.cpp:346-377) and the extension loops
(`,` on native specs, nfd_portal.cpp:279-305, 420-457).  The scan is a
`do { ++end; } while (*end != sep && *end != '\0')`, so every produced
segment takes at least one character even if it is the separator itself
(`splitSegsGo` with an empty accumulator grabs the next character
unconditionally).  The source never runs this on an empty string nor past
a trailing separator (the `do`-`while` would read past the terminator);
those cases yield an empty segment here. -/
def splitSegsGo (sep : Char) (acc : List Char) : List Char → List (List Char)
  | [] => [acc.reverse]
  | x :: xs =>
    if acc = [] then splitSegsGo sep [x] xs
    else if x = sep then acc.reverse :: splitSegsGo sep [] xs
    else splitSegsGo sep (x :: acc) xs

def splitSegsC (sep : Char) (s : List Char) : List (List Char) :=
  splitSegsGo sep [] s

/-- A portal filter as serialized into the `(sa(us))` structure: a display
name and a list of `(kind, pattern)` pairs; the source always appends
kind `0`. -/
structure PortalFilter where
  name : List Char
  patterns : List (Nat × List Char)
deriving DecidableEq, Repr

/-- `AppendWildcardFilter` (nfd_portal.cpp:464-486): display name is the
given name, or `"All files"` when absent; single pattern `"*"` with
kind 0. -/
def AppendWildcardFilter (name : Option (List Char)) : PortalFilter :=
  ⟨name.getD ("All files".toList), [(0, ['*'])]⟩

/-- The Windows-DSL `AppendSingleFilter` (nfd_portal.cpp:311-381):
display name is the raw pair name; the pattern string is split on `;`
(each segment scanned by the at-least-one-character loop) and each
segment is emitted case-wrapped by `genCaseSensitivePattern`, kind 0. -/
def AppendSingleFilterWin (name pattern : List Char) : PortalFilter :=
  ⟨name, (splitSegsC ';' pattern).map (fun seg => (0, genCaseSensitivePattern seg))⟩

/-- A native filter item (`nfdnfilteritem_t`): a name and a
comma-separated extension spec such as `"cpp,cc,h"`. -/
structure NFilterItem where
  name : List Char
  spec : List Char
deriving DecidableEq, Repr

/-- The display name built by the native `AppendSingleFilter`
(nfd_portal.cpp:258-274) and `AppendSingleFilterCheckExtn`
(nfd_portal.cpp:398-414): `name ++ " (" ++ spec ++ ")"` with a space
inserted after every comma of the spec. -/
def nativeDisplayName (f : NFilterItem) : List Char :=
  f.name ++ ' ' :: '(' ::
    (f.spec.flatMap (fun c => if c = ',' then [c, ' '] else [c]) ++ [')'])

/-- The native `AppendSingleFilter` (nfd_portal.cpp:245-309): the spec is
split on `,` by the at-least-one-character scanner and each segment `e`
becomes the pattern `*.e` with kind 0.  `AppendSingleFilterCheckExtn`
emits the identical encoding. -/
def AppendSingleFilterN (f : NFilterItem) : PortalFilter :=
  ⟨nativeDisplayName f,
    (splitSegsC ',' f.spec).map (fun seg => (0, '*' :: '.' :: seg))⟩

/-! ### URI codec (nfd_portal.cpp:1194-1279, 1858-1867) -/

/-- `IsHex` (nfd_portal.cpp:1194-1197). -/
def IsHex (ch : Char) : Bool :=
  ('0' ≤ ch && ch ≤ '9') || ('A' ≤ ch && ch ≤ 'F') || ('a' ≤ ch && ch ≤ 'f')

/-- `ParseHexUnchecked` (nfd_portal.cpp:1200-1207). -/
def ParseHexUnchecked (ch : Char) : Nat :=
  if '0' ≤ ch && ch ≤ '9' then ch.toNat - '0'.toNat
  else if 'A' ≤ ch && ch ≤ 'F' then ch.toNat - 'A'.toNat + 10
  else ch.toNat - 'a'.toNat + 10

/-- `TryUriDecodeLen` (nfd_portal.cpp:1213-1232): the measuring/validating
pass.  Walks the string; a `%` must be followed by two bytes before the
terminator (list end), both hexadecimal; returns the decoded length, or
`none` for a malformed URI. -/
def TryUriDecodeLen : List Char → Option Nat
  | [] => some 0
  | c :: rest =>
    if c = '%' then
      match rest with
      | c1 :: c2 :: rest2 =>
        if IsHex c1 && IsHex c2 then (TryUriDecodeLen rest2).map (· + 1)
        else none
      | _ => none
    else (TryUriDecodeLen rest).map (· + 1)

/-- `UriDecodeUnchecked` (nfd_portal.cpp:1237-1249): the writing pass.  A
`%HH` escape becomes the byte `16 * high + low`; other bytes are copied.
Precondition (as in the source): the input was validated, so the
truncated-escape fallback case is never reached. -/
def UriDecodeUnchecked : List Char → List Char
  | [] => []
  | c :: rest =>
    if c = '%' then
      match rest with
      | c1 :: c2 :: rest2 =>
        Char.ofNat (16 * ParseHexUnchecked c1 + ParseHexUnchecked c2) ::
          UriDecodeUnchecked rest2
      | _ => []
    else c :: UriDecodeUnchecked rest

/-- `FILE_URI_PREFIX_STR` (nfd_portal.cpp:1251). -/
def FILE_URI_PREFIX_STR : List Char := "file://".toList

/-- `AllocAndCopyFilePath` (nfd_portal.cpp:1257-1279): requires the
literal `file://` prefix (else the not-a-file-URI error), validates with
`TryUriDecodeLen` (else the malformed-URI error), then decodes the rest.
Errors are `none`. -/
def AllocAndCopyFilePath (fileUri : List Char) : Option (List Char) :=
  if FILE_URI_PREFIX_STR.isPrefixOf fileUri then
    let rest := fileUri.drop FILE_URI_PREFIX_STR.length
    match TryUriDecodeLen rest with
    | none => none
    | some _ => some (UriDecodeUnchecked rest)
  else none

/-- `ConvertToUriPath` (nfd_portal.cpp:1858-1867): prepends `file://`
with no escaping. -/
def ConvertToUriPath (path : List Char) : List Char :=
  FILE_URI_PREFIX_STR ++ path

/-! ### Windows filter DSL walk (nfd_portal.cpp:488-542) -/

/-- `strlen`/read the C string a buffer position designates: the bytes up
to the first NUL (or the end of the modelled buffer). -/
def cstr (s : List Char) : List Char := s.takeWhile (fun x => x ≠ nul)

/-- Advance a buffer position past the current C string and its NUL
(`ptr += strlen(ptr) + 1`). -/
def cstrNext (s : List Char) : List Char :=
  (s.dropWhile (fun x => x ≠ nul)).drop 1

theorem cstrNext_length_lt (s : List Char) (hs : s ≠ []) :
    (cstrNext s).length < s.length := by
  unfold cstrNext
  have h1 : (s.dropWhile (fun x => decide (x ≠ nul))).length ≤ s.length :=
    dropWhile_length_le _ s
  have h2 : 0 < s.length := by
    cases s with
    | nil => exact absurd rfl hs
    | cons a l => simp
  rcases hdw : s.dropWhile (fun x => decide (x ≠ nul)) with _ | ⟨a, l⟩
  · simpa using h2
  · rw [hdw] at h1
    simp only [List.drop_succ_cons, List.drop_zero, List.length_cons] at h1 ⊢
    omega

/-- The `curFilter` selection loop of `AppendFileQueryDictEntryFilters`
(nfd_portal.cpp:505-523): walks the alternating `name NUL pattern NUL`
buffer; at iteration `i` (1-based) the cursor is remembered when
`i = filterIndex`; the walk stops at the terminating empty name, or right
after a pair whose pattern is empty (which the source encodes as a
wildcard and then `break`s). Returns the buffer suffix `curFilter` points
at. -/
def selectCurFilter (cur ptr : List Char) (i filterIndex : Nat) : List Char :=
  match ptr with
  | [] => cur
  | c :: rest =>
    if c = nul then cur
    else
      if h : (cstrNext (c :: rest)).head? = some nul ∨ cstrNext (c :: rest) = []
      then (if i = filterIndex then c :: rest else cur)
      else
        selectCurFilter (if i = filterIndex then c :: rest else cur)
          (cstrNext (cstrNext (c :: rest))) (i + 1) filterIndex
termination_by ptr.length
decreasing_by
  have h1 : (cstrNext (c :: rest)).length < (c :: rest).length :=
    cstrNext_length_lt _ (by simp)
  have h2 : (cstrNext (cstrNext (c :: rest))).length < (cstrNext (c :: rest)).length := by
    apply cstrNext_length_lt
    intro he
    exact h (Or.inr he)
  omega

/-- `AppendFileQueryDictEntryFilters` (nfd_portal.cpp:488-542), restricted
to the `current_filter` dictionary entry it emits: `none` when the filter
buffer is absent/empty (no entry appended); otherwise the selected pair is
encoded by `AppendWildcardFilter` when its pattern is empty and by the
Windows `AppendSingleFilter` otherwise. -/
def winCurrentFilterEntry (winFilter : List Char) (filterIndex : Nat) :
    Option PortalFilter :=
  match winFilter with
  | [] => none
  | c :: _ =>
    if c = nul then none
    else
      let cur := selectCurFilter winFilter winFilter 1 filterIndex
      let curName := cstr cur
      let curPattern := cstrNext cur
      if curPattern.head? = some nul ∨ curPattern = [] then
        some (AppendWildcardFilter (some curName))
      else
        some (AppendSingleFilterWin curName (cstr curPattern))

/-! ### Save-dialog current_filter selection (nfd_portal.cpp:383-462,
587-643) -/

/-- The extension-match comparison loop of `AppendSingleFilterCheckExtn`
(nfd_portal.cpp:441-451): compares the scanned span `[extn_begin,
extn_end)` byte-for-byte against the NUL-terminated `match_extn`; a match
requires both to be exhausted together. -/
def spanEqCstr : List Char → List Char → Bool
  | [], e => e.isEmpty
  | _ :: _, [] => false
  | p :: ps, q :: qs => if p ≠ q then false else spanEqCstr ps qs

/-- `AppendSingleFilterCheckExtn` (nfd_portal.cpp:383-462), restricted to
its boolean result: whether any span produced by the comma scanner over
the spec equals `match_extn`. -/
def checkExtnMatches (spec match_extn : List Char) : Bool :=
  (splitSegsC ',' spec).any (fun seg => spanEqCstr seg match_extn)

/-- The extension extraction of `AppendSaveFileQueryDictEntryFilters`
(nfd_portal.cpp:598-606): scan back from the terminator to the last `.`
(the source loops `while (*--p != '.')` and so requires a dot to be
present), step past it; an empty remainder means no extension (`none`). -/
def defaultNameExtn (name : List Char) : Option (List Char) :=
  let suffix := (name.reverse.takeWhile (fun c => c ≠ '.')).reverse
  if suffix = [] then none else some suffix

/-- `AppendSaveFileQueryDictEntryFilters` (nfd_portal.cpp:587-643),
restricted to the `current_filter` entry it emits: `none` when the filter
list is empty (no entry appended).  Otherwise, with the defaultName's
extension in hand, the first filter whose comma-scanned spec contains a
matching span is selected (`AppendSingleFilterCheckExtn` sets
`extn_matched`/`selected_filter_index` on the first hit), else the
wildcard. -/
def saveCurrentFilterEntry (filterList : List NFilterItem)
    (defaultName : Option (List Char)) : Option PortalFilter :=
  if filterList = [] then none
  else
    let extn : Option (List Char) := defaultName.bind defaultNameExtn
    some (match extn with
      | none => AppendWildcardFilter none
      | some e =>
        match filterList.find? (fun f => checkExtnMatches f.spec e) with
        | some f => AppendSingleFilterN f
        | none => AppendWildcardFilter none)

/-! ### Multi-path packing (nfd_portal.cpp:1315-1357, 2267-2340)

`copyFileInfo<Dirname/Basename>` hands the decoded path to the glibc
`dirname`/`basename` (POSIX, `<libgen.h>`) and then copies
`copy(segment, bufEnd + 1, curOutPath)` — i.e. from the returned segment
pointer through the buffer's original terminator, after `dirname` has
truncated the buffer in place.  The libc functions are external to the
repository; they are modelled below after glibc's `dirname` and
`__xpg_basename`. -/

/-- `strrchr`: index of the last occurrence of `c`, if any. -/
def strrchrIdx (c : Char) : List Char → Option Nat
  | [] => none
  | x :: xs =>
    match strrchrIdx c xs with
    | some i => some (i + 1)
    | none => if x = c then some 0 else none

/-- The backward scan `for (runp = last_slash; runp != path; --runp)
if (runp[-1] != '/') break;` of glibc `dirname`: from position `i`, step
back over the run of `'/'` bytes immediately before it. -/
def backScanSlashes (buf : List Char) (i : Nat) : Nat :=
  i - ((buf.take i).reverse.takeWhile (fun x => x = '/')).length

/-- glibc `dirname`, reduced to the index at which it writes the
truncating NUL into the caller's buffer (it returns the buffer pointer in
all these cases).  `none` models the no-slash / all-stripped cases where
glibc returns the static string `"."` instead of a pointer into the
buffer — there the source's `copy(segment, bufEnd + 1, ...)` walks out of
bounds, so no in-bounds behaviour exists to model. -/
def glibcDirnameCut (path : List Char) : Option Nat :=
  match strrchrIdx '/' path with
  | none => none
  | some ls0 =>
    let ls1 : Option Nat :=
      if ls0 ≠ 0 ∧ ls0 + 1 = path.length then
        let runp := backScanSlashes path ls0
        if runp ≠ 0 then strrchrIdx '/' (path.take runp) else some ls0
      else some ls0
    match ls1 with
    | none => none
    | some ls =>
      let runp := backScanSlashes path ls
      some (if runp = 0 then (if ls = 1 then 2 else 1) else runp)

/-- glibc `__xpg_basename`, reduced to the offset of the returned pointer
into the caller's buffer: for a nonempty path not ending in `'/'` it is
the position after the last slash (no mutation happens).  The other cases
(empty path → static `"."`; trailing slashes → in-place stripping) are
not reached by the claims and are modelled as `none`. -/
def xpgBasenameIdx (path : List Char) : Option Nat :=
  if path = [] ∨ path.getLast? = some '/' then none
  else some (match strrchrIdx '/' path with
    | none => 0
    | some i => i + 1)

/-- The path policies of nfd_portal.cpp:1281-1293. -/
inductive FilePathPolicy where
  | FullPath
  | Dirname
  | Basename
deriving DecidableEq, Repr

/-- `copyFileInfo<Policy>` (nfd_portal.cpp:1315-1357), reduced to the
bytes it appends to the growing output buffer: strip `file://`, validate
and decode the URI, then
  * FullPath: the decoded path and a NUL;
  * Dirname: the whole decoded buffer after glibc `dirname` wrote its
    truncating NUL, plus the original terminator (the source copies from
    the returned pointer through `bufEnd + 1`);
  * Basename: the buffer suffix from the pointer `basename` returned,
    plus the terminator.
`none` covers the error returns and the unmodelled libc cases. -/
def copyFileInfo (policy : FilePathPolicy) (fileUri : List Char) :
    Option (List Char) :=
  if FILE_URI_PREFIX_STR.isPrefixOf fileUri then
    let rest := fileUri.drop FILE_URI_PREFIX_STR.length
    match TryUriDecodeLen rest with
    | none => none
    | some _ =>
      let decoded := UriDecodeUnchecked rest
      match policy with
      | .FullPath => some (decoded ++ [nul])
      | .Dirname =>
        (glibcDirnameCut decoded).map (fun cut => decoded.set cut nul ++ [nul])
      | .Basename =>
        (xpgBasenameIdx decoded).map (fun i => decoded.drop i ++ [nul])
  else none

/-- The `i = 1 .. numPaths-1` basename loop of `NFD_OpenDialogMultipleWin`
(nfd_portal.cpp:2320-2327): concatenation of the `Basename` appends. -/
def packBasenames : List (List Char) → Option (List Char)
  | [] => some []
  | u :: us =>
    match copyFileInfo .Basename u, packBasenames us with
    | some b, some acc => some (b ++ acc)
    | _, _ => none

/-- The sync packing of `NFD_OpenDialogMultipleWin` (nfd_portal.cpp:
2300-2336) as a function of the URI list: one URI gets the `FullPath`
policy; otherwise the first URI gets `Dirname` and every remaining URI
`Basename`; a final NUL double-terminates the buffer.  An empty URI set
fails (the index-0 iterator read is not a string). -/
def packMultiPathBuffer : List (List Char) → Option (List Char)
  | [] => none
  | [u] => (copyFileInfo .FullPath u).map (· ++ [nul])
  | u :: us =>
    match copyFileInfo .Dirname u, packBasenames us with
    | some d, some bs => some (d ++ bs ++ [nul])
    | _, _ => none

/-! ### Handle generation (nfd_portal.cpp:1073-1120) -/

/-- `Generate64RandomChars` (nfd_portal.cpp:1073-1093) as a function of
the 32 bytes the `getrandom` retry loop collects (requests of at most 256
bytes are served whole; only `EINTR` is retried): each byte becomes two
characters, `'A' + low_nibble` then `'A' + high_nibble`. -/
def Generate64RandomChars (bytes : List Nat) : List Char :=
  bytes.flatMap (fun b =>
    [Char.ofNat ('A'.toNat + b % 16), Char.ofNat ('A'.toNat + b / 16)])

/-- `STR_RESPONSE_HANDLE_PREFIX_STR` (nfd_portal.cpp:1095). -/
def STR_RESPONSE_HANDLE_PREFIX_STR : List Char :=
  "/org/freedesktop/portal/desktop/request/".toList

/-- `MakeUniqueObjectPath` (nfd_portal.cpp:1099-1120): the prefix, then
the connection's unique name with a leading `':'` skipped and every `'.'`
mapped to `'_'`, then `'/'`, then the 64 token characters.  The random
bytes are passed in (see `Generate64RandomChars`). -/
def MakeUniqueObjectPath (uniqueName : List Char) (bytes : List Nat) :
    List Char :=
  let sender := if uniqueName.head? = some ':' then uniqueName.drop 1
                else uniqueName
  STR_RESPONSE_HANDLE_PREFIX_STR ++
    sender.map (fun ch => if ch ≠ '.' then ch else '_') ++
    '/' :: Generate64RandomChars bytes

/-! ### Response parsing and the error slot (nfd_portal.cpp:102-116,
822-977, 2145-2152) -/

/-- `nfdresult_t`. -/
inductive nfdresult where
  | NFD_ERROR
  | NFD_OKAY
  | NFD_CANCEL
deriving DecidableEq, Repr

/-- A D-Bus value as read through a message iterator.  `dictEntry` pairs
a key with its (already wrapped) value. -/
inductive DBusVal where
  | u32 (n : Nat)
  | str (s : List Char)
  | objPath (s : List Char)
  | boolean (b : Bool)
  | arr (elems : List DBusVal)
  | variant (v : DBusVal)
  | dictEntry (key : List Char) (val : DBusVal)

/-- The process-global `err_ptr` slot (nfd_portal.cpp:108):
`NFD_GetError` returns it, `NFDi_SetError` overwrites it. -/
abbrev ErrSlot := Option String

/-- `NFDi_SetError` (nfd_portal.cpp:114-116). -/
def NFDi_SetError (_old : ErrSlot) (msg : String) : ErrSlot := some msg

/-- `NFD_GetError` (nfd_portal.cpp:2145-2147). -/
def NFD_GetError (err : ErrSlot) : ErrSlot := err

/-- Outcome of `ReadResponseResults`: on OKAY the iterator is left on the
second argument of the signal (the results dictionary). -/
inductive ReadResultsOut where
  | okay (results : DBusVal)
  | cancel
  | error

/-- `ReadResponseResults` (nfd_portal.cpp:883-912): first argument must
exist and be a uint32 response code; code 1 is the user cancel (no error
is set), any other nonzero code is the abrupt-end error; on success a
second argument must exist. -/
def ReadResponseResults (err : ErrSlot) (msg : List DBusVal) :
    ErrSlot × ReadResultsOut :=
  match msg with
  | [] =>
    (NFDi_SetError err "D-Bus response signal is missing one or more arguments.",
     .error)
  | .u32 code :: rest =>
    if code ≠ 0 then
      if code = 1 then (err, .cancel)
      else (NFDi_SetError err "D-Bus file dialog interaction was ended abruptly.",
            .error)
    else
      match rest with
      | [] =>
        (NFDi_SetError err
           "D-Bus response signal is missing one or more arguments.", .error)
      | results :: _ => (err, .okay results)
  | _ :: _ =>
    (NFDi_SetError err "D-Bus response signal argument is not a uint32.", .error)

/-- The `uris` callback passed to `ReadDict` by `ReadResponseUris`
(nfd_portal.cpp:922-930): the variant's content must be an array, whose
elements become the URI iterator. -/
def urisCallback (err : ErrSlot) (v : DBusVal) :
    ErrSlot × nfdresult × Option (List DBusVal) :=
  match v with
  | .arr elems => (err, .NFD_OKAY, some elems)
  | _ =>
    (NFDi_SetError err "D-Bus response signal URI iter is not an array.",
     .NFD_ERROR, none)

/-- The dict-entry loop of `ReadDict` (nfd_portal.cpp:851-875),
specialized to the single `"uris"` callback: entries are walked while they
are dict entries (a non-dict-entry element simply ends the loop); each
value must be a variant; matching keys run the callback; unknown keys are
skipped. The accumulated URI iterator is threaded through. -/
def readDictLoop (err : ErrSlot) (entries : List DBusVal)
    (acc : Option (List DBusVal)) :
    ErrSlot × nfdresult × Option (List DBusVal) :=
  match entries with
  | [] => (err, .NFD_OKAY, acc)
  | .dictEntry key val :: rest =>
    match val with
    | .variant inner =>
      if key = "uris".toList then
        match urisCallback err inner with
        | (err1, .NFD_ERROR, _) => (err1, .NFD_ERROR, acc)
        | (err1, _, acc1) => readDictLoop err1 rest (acc1 <|> acc)
      else readDictLoop err rest acc
    | _ =>
      (NFDi_SetError err "D-Bus response signal dict entry value is not a variant.",
       .NFD_ERROR, acc)
  | _ :: _ => (err, .NFD_OKAY, acc)

/-- `ReadDict` (nfd_portal.cpp:843-875) for the `"uris"` key: the
iterator must sit on an array, then the entry loop runs. -/
def ReadDictUris (err : ErrSlot) (results : DBusVal) :
    ErrSlot × nfdresult × Option (List DBusVal) :=
  match results with
  | .arr entries => readDictLoop err entries none
  | _ =>
    (NFDi_SetError err "D-Bus response signal argument is not an array.",
     .NFD_ERROR, none)

/-- Outcome of `ReadResponseUris`/`ReadResponseUrisSingle` and of the
whole dialog tail. -/
inductive UrisOut where
  | okay (uris : List DBusVal)
  | cancel
  | error

/-- `ReadResponseUris` (nfd_portal.cpp:917-938): `ReadResponseResults`,
then the dict walk; a missing `uris` key is an error. -/
def ReadResponseUris (err : ErrSlot) (msg : List DBusVal) :
    ErrSlot × UrisOut :=
  match ReadResponseResults err msg with
  | (err1, .cancel) => (err1, .cancel)
  | (err1, .error) => (err1, .error)
  | (err1, .okay results) =>
    match ReadDictUris err1 results with
    | (err2, .NFD_ERROR, _) => (err2, .error)
    | (err2, _, some uris) => (err2, .okay uris)
    | (err2, _, none) =>
      (NFDi_SetError err2 "D-Bus response signal has no URI field.", .error)

/-- Outcome of the single-URI read: the borrowed URI string. -/
inductive UriSingleOut where
  | okay (uri : List Char)
  | cancel
  | error
deriving DecidableEq, Repr

/-- `ReadResponseUrisSingle` (nfd_portal.cpp:967-977): the first element
of the URI array must be a string. -/
def ReadResponseUrisSingle (err : ErrSlot) (msg : List DBusVal) :
    ErrSlot × UriSingleOut :=
  match ReadResponseUris err msg with
  | (err1, .cancel) => (err1, .cancel)
  | (err1, .error) => (err1, .error)
  | (err1, .okay uris) =>
    match uris with
    | .str s :: _ => (err1, .okay s)
    | _ =>
      (NFDi_SetError err1 "D-Bus response signal URI sub iter is not a string.",
       .error)

/-- `AllocAndCopyFilePath` with its error-slot writes (the `Option`-level
behaviour is `AllocAndCopyFilePath` above). -/
def AllocAndCopyFilePathE (err : ErrSlot) (fileUri : List Char) :
    ErrSlot × Option (List Char) :=
  if FILE_URI_PREFIX_STR.isPrefixOf fileUri then
    match TryUriDecodeLen (fileUri.drop FILE_URI_PREFIX_STR.length) with
    | none =>
      (NFDi_SetError err "D-Bus freedesktop portal returned a malformed URI.",
       none)
    | some _ => (err, some (UriDecodeUnchecked (fileUri.drop FILE_URI_PREFIX_STR.length)))
  else
    (NFDi_SetError err
       "D-Bus freedesktop portal returned a URI that is not a file URI.", none)

/-- Terminal outcome of a dialog call once the `Response` signal is in
hand. -/
inductive DialogOut where
  | okay (path : List Char)
  | cancel
  | error
deriving DecidableEq, Repr

/-- The response-handling tail shared by `NFD_OpenDialogWin` (sync,
nfd_portal.cpp:2236-2244), `NFD_SaveDialogWin` (nfd_portal.cpp:2404-2412),
`NFD_OpenDialogN`, `NFD_SaveDialogN` and `NFD_PickFolderN`: read the
single URI out of the response message, then decode it. -/
def singleDialogReadResponse (err : ErrSlot) (msg : List DBusVal) :
    ErrSlot × DialogOut :=
  match ReadResponseUrisSingle err msg with
  | (err1, .cancel) => (err1, .cancel)
  | (err1, .error) => (err1, .error)
  | (err1, .okay uri) =>
    match AllocAndCopyFilePathE err1 uri with
    | (err2, none) => (err2, .error)
    | (err2, some path) => (err2, .okay path)

/-- Extract the URI strings from the response's URI value array,
mirroring the per-index string type check of `NFD_PathSet_GetPathWin`
(nfd_portal.cpp:1377-1383). -/
def urisAsStrings : List DBusVal → Option (List (List Char))
  | [] => some []
  | .str s :: rest => (urisAsStrings rest).map (s :: ·)
  | _ :: _ => none

/-- The response-handling tail of the sync `NFD_OpenDialogMultipleWin`
(nfd_portal.cpp:2293-2338): read the URI array, then pack it with the
Dirname/Basename policies. -/
def multiDialogReadResponse (err : ErrSlot) (msg : List DBusVal) :
    ErrSlot × DialogOut :=
  match ReadResponseUris err msg with
  | (err1, .cancel) => (err1, .cancel)
  | (err1, .error) => (err1, .error)
  | (err1, .okay uris) =>
    match urisAsStrings uris with
    | none =>
      (NFDi_SetError err1 "D-Bus response signal URI sub iter is not a string.",
       .error)
    | some us =>
      match packMultiPathBuffer us with
      | none => (err1, .error)
      | some buf => (err1, .okay buf)

/-! ### Async monitor (nfd_portal.cpp:1431-1648, 2417-2435) -/

/-- The state guarded by the `NfdDialogMonitor` mutex
(nfd_portal.cpp:1431-1438). -/
structure NfdDialogMonitor where
  outPath : Option (List Char)
  outPathSize : Nat
  resultCode : nfdresult
  completed : Bool
deriving DecidableEq, Repr

/-- The caller-visible `NfdDialogResponse` fields written by a
successful retrieve. -/
structure NfdDialogResponse where
  outPath : Option (List Char)
  outPathSize : Nat
deriving DecidableEq, Repr

/-- `NfdDialogMonitor::getDialogResult` (nfd_portal.cpp:1633-1647):
before completion, sets the not-ready error and returns `NFD_ERROR`
without touching the monitor or the caller's response; after completion
with a non-OKAY code, returns that code untouched; after completion with
OKAY, transfers the buffer into the response and nulls the monitor's
pointer.  Returns (new monitor state, new error slot, return code,
response written if any). -/
def getDialogResult (err : ErrSlot) (m : NfdDialogMonitor) :
    NfdDialogMonitor × ErrSlot × nfdresult × Option NfdDialogResponse :=
  if ¬ m.completed then
    (m, NFDi_SetError err "response not ready", .NFD_ERROR, none)
  else if m.resultCode ≠ .NFD_OKAY then
    (m, err, m.resultCode, none)
  else
    ({ m with outPath := none }, err, .NFD_OKAY,
     some ⟨m.outPath, m.outPathSize⟩)

/-- `NFD_GetAsyncOpResult` (nfd_portal.cpp:2427-2435): a null handle is
the argument error; otherwise delegate to the monitor. -/
def NFD_GetAsyncOpResult (err : ErrSlot) (opHandle : Option NfdDialogMonitor) :
    Option NfdDialogMonitor × ErrSlot × nfdresult × Option NfdDialogResponse :=
  match opHandle with
  | none => (none, NFDi_SetError err "opHandle null", .NFD_ERROR, none)
  | some m =>
    let r := getDialogResult err m
    (some r.1, r.2)

/-! ### Claim-side (specification) definitions -/

/-- Spec-side wrap of one pattern character, following the claim's words:
an alphabetic character becomes `[`, its lowercase, its uppercase, `]`;
anything else passes through. -/
def caseWrapSpec (c : Char) : List Char :=
  if isalpha c then ['[', tolower c, toupper c, ']'] else [c]

/-- Serialization of a list of `(name, pattern)` pairs into the
Windows-style filter buffer `name NUL pattern NUL ... NUL` the claims
speak about (the final NUL is the empty name ending the walk; together
with the preceding pattern's NUL it forms the double-NUL terminator). -/
def serWinPairs : List (List Char × List Char) → List Char
  | [] => [nul]
  | (n, p) :: ps => n ++ nul :: p ++ nul :: serWinPairs ps

/-- Well-formedness of a Windows filter pair list: names are nonempty and
NUL-free, patterns are NUL-free, and only the last pair may have an empty
pattern (an empty pattern anywhere else would put the double-NUL end
marker in the middle of the buffer). -/
def WinPairsWF (ps : List (List Char × List Char)) : Prop :=
  (∀ pr ∈ ps, pr.1 ≠ [] ∧ nul ∉ pr.1 ∧ nul ∉ pr.2) ∧
  (∀ pr ∈ ps.dropLast, pr.2 ≠ [])

instance (ps : List (List Char × List Char)) : Decidable (WinPairsWF ps) := by
  unfold WinPairsWF
  infer_instance

/-- Claim-side encoding of one Windows filter pair: an empty pattern is
the wildcard filter carrying the pair's name, otherwise the Windows
single-filter encoding. -/
def encodeWinPair (pr : List Char × List Char) : PortalFilter :=
  if pr.2 = [] then AppendWildcardFilter (some pr.1)
  else AppendSingleFilterWin pr.1 pr.2

/-- The 1-based index the claim says is honoured: `filterIndex` itself
when it lies within the pair list, else 1. -/
def effWinIndex (idx count : Nat) : Nat :=
  if 1 ≤ idx ∧ idx ≤ count then idx else 1

/-- Spec-side join of an extension list into a comma-separated spec
string (`"cpp,cc,h"`). -/
def sepJoin (sep : Char) : List (List Char) → List Char
  | [] => []
  | [e] => e
  | e :: rest => e ++ sep :: sepJoin sep rest

/-- Spec-side standard split on a separator (empty segments allowed):
the claim's notion of "the comma-separated extensions of a filter". -/
def sepSplit (sep : Char) : List Char → List (List Char)
  | [] => [[]]
  | c :: rest =>
    let r := sepSplit sep rest
    if c = sep then [] :: r
    else
      match r with
      | [] => [[c]]
      | seg :: segs => (c :: seg) :: segs

/-- A native filter spec is well-formed (the data model's "comma-separated
list of bare extensions") when it is the comma-join of a nonempty list of
nonempty, comma-free, NUL-free extensions. -/
def WellFormedSpec (spec : List Char) : Prop :=
  ∃ exts : List (List Char), exts ≠ [] ∧
    (∀ e ∈ exts, e ≠ [] ∧ ',' ∉ e ∧ nul ∉ e) ∧ spec = sepJoin ',' exts

/-- Spec-side extension of a default file name: the characters after the
last `'.'`. -/
def claimExtnOf (name : List Char) : List Char :=
  (name.reverse.takeWhile (fun c => c ≠ '.')).reverse

/-- Spec-side POSIX `basename`: the characters after the last `'/'` (for
paths not ending in a slash this is the standard result). -/
def posixBasename (p : List Char) : List Char :=
  (p.reverse.takeWhile (fun c => c ≠ '/')).reverse

/-- Spec-side POSIX `dirname` in its plain cases: everything before the
last `'/'`; `"."` without a slash, `"/"` when the only slash leads. -/
def posixDirname (p : List Char) : List Char :=
  match strrchrIdx '/' p with
  | none => ['.']
  | some 0 => ['/']
  | some i => p.take i

/-- The multi-path packed buffer exactly as claim C1 words it: for one
path, the full path, NUL and the extra NUL; for `N ≥ 2`, the dirname of
the first path, a NUL, then the basename of each REMAINING path (the
paths after the first) each followed by NUL, then one extra NUL. -/
def claimPackedBuffer : List (List Char) → List Char
  | [] => []
  | [p] => p ++ [nul, nul]
  | p :: rest =>
    posixDirname p ++ [nul] ++
      rest.flatMap (fun q => posixBasename q ++ [nul]) ++ [nul]

/-! ### Theorems -/

theorem genCaseSensitivePattern_flatMap (s : List Char) :
    genCaseSensitivePattern s = s.flatMap caseWrapSpec := by
  induction s with
  | nil => rfl
  | cons c rest ih =>
    simp only [genCaseSensitivePattern, List.flatMap_cons, ih, caseWrapSpec]

/-- C7: the emitted portal pattern replaces each alphabetic character `c`
by `[`, lowercase(c), uppercase(c), `]` and leaves every other character
unchanged; in particular the Windows filter pair `("Text", "*.TXT")` is
emitted with the single pattern `*.[tT][xX][tT]`. -/
theorem C7_case_wrap :
    (∀ s : List Char, genCaseSensitivePattern s = s.flatMap caseWrapSpec) ∧
    AppendSingleFilterWin "Text".toList "*.TXT".toList =
      ⟨"Text".toList, [(0, "*.[tT][xX][tT]".toList)]⟩ := by
  refine ⟨genCaseSensitivePattern_flatMap, ?_⟩
  decide

theorem genCaseSensitivePattern_length (s : List Char) :
    (genCaseSensitivePattern s).length =
      s.length + 3 * s.countP (fun c => isalpha c) := by
  induction s with
  | nil => rfl
  | cons c rest ih =>
    simp only [genCaseSensitivePattern, List.length_append, ih,
      List.countP_cons, List.length_cons]
    by_cases h : isalpha c <;> simp [h] <;> ring

/-- C10: `genCaseSensitivePattern` writes exactly `(end - begin) + 3 * k`
bytes for a span with `k` alphabetic bytes, so with the terminating NUL
the emitted pattern occupies exactly the `(pattern_end - pattern_begin) +
3 * letter_count + 1` bytes that the Windows-DSL `AppendSingleFilter`
`alloca`s for each scanned segment (the counting loop visits the same
span the emitter does), and the scratch buffer is never overrun. -/
theorem C10_pattern_buffer_exact :
    (∀ s : List Char,
      (genCaseSensitivePattern s).length =
        s.length + 3 * s.countP (fun c => isalpha c)) ∧
    (∀ pattern seg : List Char, seg ∈ splitSegsC ';' pattern →
      (genCaseSensitivePattern seg).length + 1 ≤
        seg.length + 3 * seg.countP (fun c => isalpha c) + 1) := by
  refine ⟨genCaseSensitivePattern_length, ?_⟩
  intro pattern seg _
  rw [genCaseSensitivePattern_length]

/-- Closed witness for C10 at the scanned segment of `"*.TXT"`. -/
theorem C10_pattern_buffer_exact_witness :
    "*.TXT".toList ∈ splitSegsC ';' "*.TXT".toList ∧
    (genCaseSensitivePattern "*.TXT".toList).length + 1 ≤
      "*.TXT".toList.length + 3 * "*.TXT".toList.countP (fun c => isalpha c) + 1 :=
  ⟨by decide, C10_pattern_buffer_exact.2 "*.TXT".toList "*.TXT".toList (by decide)⟩

theorem Generate64RandomChars_spec (bytes : List Nat)
    (hlen : bytes.length = 32) (hb : ∀ b ∈ bytes, b < 256) :
    (Generate64RandomChars bytes).length = 64 ∧
    ∀ c ∈ Generate64RandomChars bytes, 'A' ≤ c ∧ c ≤ 'P' := by
  constructor
  · unfold Generate64RandomChars
    rw [List.length_flatMap]
    have : (List.length ∘ fun b : Nat =>
        [Char.ofNat ('A'.toNat + b % 16), Char.ofNat ('A'.toNat + b / 16)]) =
        fun _ : Nat => 2 := by
      funext b; rfl
    rw [this]
    simp [hlen, List.map_const]
  · intro c hc
    unfold Generate64RandomChars at hc
    rw [List.mem_flatMap] at hc
    obtain ⟨b, hbmem, hcmem⟩ := hc
    have hb256 : b < 256 := hb b hbmem
    have hlow : b % 16 < 16 := Nat.mod_lt _ (by omega)
    have hhigh : b / 16 < 16 := by omega
    simp only [List.mem_cons, List.not_mem_nil, or_false] at hcmem
    rcases hcmem with h | h <;> subst h
    · generalize hx : b % 16 = x at *
      interval_cases x <;> exact ⟨by decide, by decide⟩
    · generalize hx : b / 16 = x at *
      interval_cases x <;> exact ⟨by decide, by decide⟩

/-- C5: the request handle path is the literal prefix
`/org/freedesktop/portal/desktop/request/`, then the unique bus name with
its leading `:` removed and `.` mapped to `_`, then `/`, then a token of
exactly 64 characters in `'A'..'P'`, two per random byte, low nibble
first. -/
theorem C5_request_handle_shape (rest : List Char) (bytes : List Nat)
    (hlen : bytes.length = 32) (hb : ∀ b ∈ bytes, b < 256) :
    MakeUniqueObjectPath (':' :: rest) bytes =
      "/org/freedesktop/portal/desktop/request/".toList ++
        rest.map (fun ch => if ch = '.' then '_' else ch) ++
        '/' :: Generate64RandomChars bytes ∧
    (Generate64RandomChars bytes).length = 64 ∧
    (∀ c ∈ Generate64RandomChars bytes, 'A' ≤ c ∧ c ≤ 'P') ∧
    Generate64RandomChars bytes =
      bytes.flatMap (fun b =>
        [Char.ofNat ('A'.toNat + b % 16), Char.ofNat ('A'.toNat + b / 16)]) := by
  obtain ⟨h1, h2⟩ := Generate64RandomChars_spec bytes hlen hb
  refine ⟨?_, h1, h2, rfl⟩
  unfold MakeUniqueObjectPath STR_RESPONSE_HANDLE_PREFIX_STR
  simp only [List.head?_cons, Option.some.injEq, if_pos rfl, List.drop_succ_cons,
    List.drop_zero]
  congr 2
  apply List.map_congr_left
  intro ch _
  by_cases h : ch = '.' <;> simp [h]

/-- Closed witness for C5 with the unique name `":1.42"` and the zero
byte stream. -/
theorem C5_request_handle_shape_witness :
    (List.replicate 32 0).length = 32 ∧
    MakeUniqueObjectPath (':' :: "1.42".toList) (List.replicate 32 0) =
      "/org/freedesktop/portal/desktop/request/".toList ++
        "1.42".toList.map (fun ch => if ch = '.' then '_' else ch) ++
        '/' :: Generate64RandomChars (List.replicate 32 0) :=
  ⟨by decide,
   (C5_request_handle_shape "1.42".toList (List.replicate 32 0) (by decide)
     (by intro b hb; rw [List.eq_of_mem_replicate hb]; decide)).1⟩

/-- C6: a `Response` signal carrying response code 1 makes the dialog
call return the Cancel terminal — for both the single-path read tail
(open, save, pick-folder) and the multi-path tail — and the last-error
slot is untouched, so `NFD_GetError` afterwards returns exactly what it
returned before. -/
theorem C6_cancel_preserves_error (err : ErrSlot) (rest : List DBusVal) :
    singleDialogReadResponse err (.u32 1 :: rest) = (err, .cancel) ∧
    multiDialogReadResponse err (.u32 1 :: rest) = (err, .cancel) ∧
    NFD_GetError (singleDialogReadResponse err (.u32 1 :: rest)).1 =
      NFD_GetError err ∧
    NFD_GetError (multiDialogReadResponse err (.u32 1 :: rest)).1 =
      NFD_GetError err := by
  have hres : ReadResponseResults err (.u32 1 :: rest) = (err, .cancel) := by
    simp [ReadResponseResults]
  have hu : ReadResponseUris err (.u32 1 :: rest) = (err, .cancel) := by
    simp [ReadResponseUris, hres]
  have hs : singleDialogReadResponse err (.u32 1 :: rest) = (err, .cancel) := by
    simp [singleDialogReadResponse, ReadResponseUrisSingle, hu]
  have hm : multiDialogReadResponse err (.u32 1 :: rest) = (err, .cancel) := by
    simp [multiDialogReadResponse, hu]
  exact ⟨hs, hm, by rw [hs], by rw [hm]⟩

/-- C9: retrieving before completion is an error that leaves the monitor
untouched and writes nothing to the caller; the first retrieve after an
OKAY completion transfers the buffer and nulls the stored pointer, so a
second retrieve returns OKAY with a null path; retrieval after a non-OKAY
completion returns the stored code without transferring anything.  All of
this also holds through `NFD_GetAsyncOpResult`. -/
theorem C9_monitor_retrieve (err : ErrSlot) (m : NfdDialogMonitor) :
    (¬ m.completed →
      getDialogResult err m =
        (m, NFDi_SetError err "response not ready", .NFD_ERROR, none)) ∧
    (m.completed → m.resultCode = .NFD_OKAY →
      getDialogResult err m =
        ({ m with outPath := none }, err, .NFD_OKAY,
         some ⟨m.outPath, m.outPathSize⟩) ∧
      ∀ err2,
        getDialogResult err2 (getDialogResult err m).1 =
          ({ m with outPath := none }, err2, .NFD_OKAY,
           some ⟨none, m.outPathSize⟩)) ∧
    (m.completed → m.resultCode ≠ .NFD_OKAY →
      getDialogResult err m = (m, err, m.resultCode, none)) ∧
    (∀ h : Option NfdDialogMonitor,
      NFD_GetAsyncOpResult err h =
        match h with
        | none => (none, NFDi_SetError err "opHandle null", .NFD_ERROR, none)
        | some m0 =>
          let r := getDialogResult err m0
          (some r.1, r.2)) := by
  refine ⟨?_, ?_, ?_, ?_⟩
  · intro hnc
    simp [getDialogResult, hnc]
  · intro hc hok
    constructor
    · simp [getDialogResult, hc, hok]
    · intro err2
      simp [getDialogResult, hc, hok]
  · intro hc hne
    simp [getDialogResult, hc, hne]
  · intro h
    cases h <;> rfl

/-- Closed witness for C9 at a completed OKAY monitor holding the buffer
`"a"`. -/
theorem C9_monitor_retrieve_witness :
    (⟨some ['a'], 2, .NFD_OKAY, true⟩ : NfdDialogMonitor).completed ∧
    getDialogResult none ⟨some ['a'], 2, .NFD_OKAY, true⟩ =
      (⟨none, 2, .NFD_OKAY, true⟩, none, .NFD_OKAY, some ⟨some ['a'], 2⟩) :=
  ⟨rfl,
   ((C9_monitor_retrieve none ⟨some ['a'], 2, .NFD_OKAY, true⟩).2.1
      rfl rfl).1⟩

theorem TryUriDecodeLen_cons (c : Char) (rest : List Char) :
    TryUriDecodeLen (c :: rest) =
      if c = '%' then
        match rest with
        | c1 :: c2 :: rest2 =>
          if IsHex c1 && IsHex c2 then (TryUriDecodeLen rest2).map (· + 1)
          else none
        | _ => none
      else (TryUriDecodeLen rest).map (· + 1) := by
  rw [TryUriDecodeLen.eq_def]

theorem UriDecodeUnchecked_cons (c : Char) (rest : List Char) :
    UriDecodeUnchecked (c :: rest) =
      if c = '%' then
        match rest with
        | c1 :: c2 :: rest2 =>
          Char.ofNat (16 * ParseHexUnchecked c1 + ParseHexUnchecked c2) ::
            UriDecodeUnchecked rest2
        | _ => []
      else c :: UriDecodeUnchecked rest := by
  rw [UriDecodeUnchecked.eq_def]

theorem TryUriDecodeLen_no_pct (s : List Char) (h : '%' ∉ s) :
    TryUriDecodeLen s = some s.length := by
  induction s with
  | nil => rfl
  | cons c rest ih =>
    have hc : c ≠ '%' := fun hc => h (hc ▸ List.mem_cons_self c rest)
    have hrest : '%' ∉ rest := fun hm => h (List.mem_cons_of_mem c hm)
    rw [TryUriDecodeLen_cons, if_neg hc, ih hrest]
    rfl

theorem UriDecodeUnchecked_no_pct (s : List Char) (h : '%' ∉ s) :
    UriDecodeUnchecked s = s := by
  induction s with
  | nil => rfl
  | cons c rest ih =>
    have hc : c ≠ '%' := fun hc => h (hc ▸ List.mem_cons_self c rest)
    have hrest : '%' ∉ rest := fun hm => h (List.mem_cons_of_mem c hm)
    rw [UriDecodeUnchecked_cons, if_neg hc, ih hrest]

/-- C3 counterexample: the byte string `"%41"` contains no NUL, yet
composing the file URI (`ConvertToUriPath` does no escaping) and decoding
it back (`AllocAndCopyFilePath` percent-decodes) succeeds with `"A"`,
which differs from the original string. -/
theorem C3_uri_roundtrip_counterexample :
    AllocAndCopyFilePath (ConvertToUriPath ['%', '4', '1']) = some ['A'] ∧
    (['A'] : List Char) ≠ ['%', '4', '1'] := by
  constructor
  · rfl
  · decide

/-- C3 amended: the URI round trip `decode (encode_file_uri S) = S` holds
for every byte string `S` containing no NUL byte and no `'%'` byte (a
percent byte is reinterpreted as an escape by the decoder, which the
counterexample exploits). -/
theorem C3_uri_roundtrip_amended (S : List Char) (hnul : nul ∉ S)
    (hpct : '%' ∉ S) :
    AllocAndCopyFilePath (ConvertToUriPath S) = some S := by
  unfold AllocAndCopyFilePath ConvertToUriPath
  have hpre : FILE_URI_PREFIX_STR.isPrefixOf (FILE_URI_PREFIX_STR ++ S) = true :=
    isPrefixOf_append_self _ _
  rw [if_pos hpre]
  simp only [List.drop_left, TryUriDecodeLen_no_pct S hpct,
    UriDecodeUnchecked_no_pct S hpct]

/-- Closed witness for the amended C3 at `S = "/tmp/ab"`. -/
theorem C3_uri_roundtrip_amended_witness :
    nul ∉ "/tmp/ab".toList ∧ '%' ∉ "/tmp/ab".toList ∧
    AllocAndCopyFilePath (ConvertToUriPath "/tmp/ab".toList) =
      some "/tmp/ab".toList :=
  ⟨by decide, by decide,
   C3_uri_roundtrip_amended "/tmp/ab".toList (by decide) (by decide)⟩

theorem TryUriDecodeLen_pct_head (v : List Char) (n : Nat)
    (hacc : TryUriDecodeLen ('%' :: v) = some n) :
    ∃ c1 c2 v', v = c1 :: c2 :: v' ∧ IsHex c1 ∧ IsHex c2 := by
  rw [TryUriDecodeLen_cons, if_pos rfl] at hacc
  rcases v with _ | ⟨c1, rest1⟩
  · simp at hacc
  rcases rest1 with _ | ⟨c2, v'⟩
  · simp at hacc
  dsimp only at hacc
  by_cases hhex : IsHex c1 && IsHex c2
  · rw [Bool.and_eq_true] at hhex
    exact ⟨c1, c2, v', rfl, hhex.1, hhex.2⟩
  · rw [if_neg hhex] at hacc
    simp at hacc

/-- Acceptance by `TryUriDecodeLen` forces every `'%'` in the input to be
followed by two hexadecimal bytes. -/
theorem TryUriDecodeLen_accept_pct :
    ∀ (k : Nat) (u v : List Char) (n : Nat), u.length ≤ k →
      TryUriDecodeLen (u ++ '%' :: v) = some n →
      ∃ c1 c2 v', v = c1 :: c2 :: v' ∧ IsHex c1 ∧ IsHex c2 := by
  intro k
  induction k with
  | zero =>
    intro u v n hlen hacc
    have hu : u = [] := List.length_eq_zero.mp (Nat.le_zero.mp hlen)
    subst hu
    exact TryUriDecodeLen_pct_head v n hacc
  | succ k ih =>
    intro u v n hlen hacc
    match u with
    | [] => exact TryUriDecodeLen_pct_head v n hacc
    | c :: u1 =>
      rw [List.cons_append, TryUriDecodeLen_cons] at hacc
      by_cases hc : c = '%'
      · rw [if_pos hc] at hacc
        match u1 with
        | [] =>
          rw [List.nil_append] at hacc
          rcases v with _ | ⟨c2, v2⟩
          · simp at hacc
          · dsimp only at hacc
            rw [show IsHex '%' = false from by decide] at hacc
            simp at hacc
        | [a] =>
          rw [List.cons_append, List.nil_append] at hacc
          dsimp only at hacc
          rw [show IsHex '%' = false from by decide] at hacc
          simp at hacc
        | a :: b :: u2 =>
          rw [List.cons_append, List.cons_append] at hacc
          dsimp only at hacc
          by_cases hhex : IsHex a && IsHex b
          · rw [if_pos hhex, Option.map_eq_some'] at hacc
            obtain ⟨m, hm, _⟩ := hacc
            have hlen2 : u2.length ≤ k := by
              simp only [List.length_cons] at hlen
              omega
            exact ih u2 v m hlen2 hm
          · rw [if_neg hhex] at hacc
            simp at hacc
      · rw [if_neg hc, Option.map_eq_some'] at hacc
        obtain ⟨m, hm, _⟩ := hacc
        have hlen1 : u1.length ≤ k := by
          simp only [List.length_cons] at hlen
          omega
        exact ih u1 v m hlen1 hm

/-- C8: `TryUriDecodeLen` rejects (returns `false`) every input in which
some `'%'` is followed by fewer than two bytes before the terminator, or
by two bytes of which at least one is not a hexadecimal digit; and every
input it accepts has two hexadecimal digits after every `'%'`. -/
theorem C8_decode_rejection (input : List Char) :
    ((∃ u v, input = u ++ '%' :: v ∧
        (v.length < 2 ∨
          ∃ c1 c2 v', v = c1 :: c2 :: v' ∧ (IsHex c1 = false ∨ IsHex c2 = false))) →
      TryUriDecodeLen input = none) ∧
    (∀ n, TryUriDecodeLen input = some n →
      ∀ u v, input = u ++ '%' :: v →
        ∃ c1 c2 v', v = c1 :: c2 :: v' ∧ IsHex c1 ∧ IsHex c2) := by
  constructor
  · rintro ⟨u, v, hsplit, hbad⟩
    rcases hres : TryUriDecodeLen input with _ | n
    · rfl
    · exfalso
      obtain ⟨c1, c2, v', hv, h1, h2⟩ :=
        TryUriDecodeLen_accept_pct u.length u v n le_rfl (hsplit ▸ hres)
      rcases hbad with hshort | ⟨d1, d2, w, hw, hbadhex⟩
      · rw [hv] at hshort
        simp at hshort
        omega
      · rw [hv] at hw
        injection hw with e1 hw
        injection hw with e2 _
        subst e1; subst e2
        rcases hbadhex with hb | hb
        · rw [h1] at hb; exact absurd hb (by decide)
        · rw [h2] at hb; exact absurd hb (by decide)
  · intro n hacc u v hsplit
    exact TryUriDecodeLen_accept_pct u.length u v n le_rfl (hsplit ▸ hacc)

/-- Closed witness for C8: the malformed URI `"a%4"` is rejected. -/
theorem C8_decode_rejection_witness :
    (∃ u v, (['a', '%', '4'] : List Char) = u ++ '%' :: v ∧
      (v.length < 2 ∨
        ∃ c1 c2 v', v = c1 :: c2 :: v' ∧ (IsHex c1 = false ∨ IsHex c2 = false))) ∧
    TryUriDecodeLen ['a', '%', '4'] = none := by
  have hex : ∃ u v, (['a', '%', '4'] : List Char) = u ++ '%' :: v ∧
      (v.length < 2 ∨
        ∃ c1 c2 v', v = c1 :: c2 :: v' ∧ (IsHex c1 = false ∨ IsHex c2 = false)) :=
    ⟨['a'], ['4'], rfl, Or.inl (by decide)⟩
  exact ⟨hex, (C8_decode_rejection ['a', '%', '4']).1 hex⟩

theorem cstr_append_nul (n rest : List Char) (h : nul ∉ n) :
    cstr (n ++ nul :: rest) = n := by
  induction n with
  | nil => simp [cstr]
  | cons c n1 ih =>
    have hc : c ≠ nul := fun hc => h (hc ▸ List.mem_cons_self c n1)
    have hn1 : nul ∉ n1 := fun hm => h (List.mem_cons_of_mem c hm)
    show List.takeWhile (fun x => x ≠ nul) ((c :: n1) ++ nul :: rest) = c :: n1
    rw [List.cons_append, List.takeWhile_cons, if_pos (by simp [hc])]
    exact congrArg (c :: ·) (ih hn1)

theorem cstrNext_append_nul (n rest : List Char) (h : nul ∉ n) :
    cstrNext (n ++ nul :: rest) = rest := by
  induction n with
  | nil => simp [cstrNext]
  | cons c n1 ih =>
    have hc : c ≠ nul := fun hc => h (hc ▸ List.mem_cons_self c n1)
    have hn1 : nul ∉ n1 := fun hm => h (List.mem_cons_of_mem c hm)
    show (List.dropWhile (fun x => x ≠ nul) ((c :: n1) ++ nul :: rest)).drop 1 = rest
    rw [List.cons_append, List.dropWhile_cons, if_pos (by simp [hc])]
    exact ih hn1

theorem selectCurFilter_cons (cur : List Char) (c : Char) (rest : List Char)
    (i idx : Nat) :
    selectCurFilter cur (c :: rest) i idx =
      if c = nul then cur
      else if (cstrNext (c :: rest)).head? = some nul ∨ cstrNext (c :: rest) = []
      then (if i = idx then c :: rest else cur)
      else selectCurFilter (if i = idx then c :: rest else cur)
             (cstrNext (cstrNext (c :: rest))) (i + 1) idx := by
  rw [selectCurFilter.eq_def]
  simp only [dite_eq_ite]

theorem selectCurFilter_ser (ps : List (List Char × List Char))
    (hwf : WinPairsWF ps) :
    ∀ cur i idx, selectCurFilter cur (serWinPairs ps) i idx =
      if i ≤ idx ∧ idx < i + ps.length then serWinPairs (ps.drop (idx - i))
      else cur := by
  induction ps with
  | nil =>
    intro cur i idx
    rw [show serWinPairs [] = [nul] from rfl, selectCurFilter_cons, if_pos rfl,
      if_neg (fun hcon => by
        obtain ⟨h1, h2⟩ := hcon
        simp only [List.length_nil] at h2
        omega)]
  | cons pr ps1 ih =>
    obtain ⟨n, p⟩ := pr
    have hhead := hwf.1 (n, p) (List.mem_cons_self _ _)
    have hn : n ≠ [] := hhead.1
    have hnnul : nul ∉ n := hhead.2.1
    have hpnul : nul ∉ p := hhead.2.2
    have hwf1 : WinPairsWF ps1 := by
      constructor
      · intro pr hpr
        exact hwf.1 pr (List.mem_cons_of_mem _ hpr)
      · intro pr hpr
        refine hwf.2 pr ?_
        rcases ps1 with _ | ⟨q, ps2⟩
        · simp at hpr
        · rw [List.dropLast_cons₂]
          exact List.mem_cons_of_mem _ hpr
    have hplast : ps1 ≠ [] → p ≠ [] := by
      intro hps1
      refine hwf.2 (n, p) ?_
      rcases hd : ps1 with _ | ⟨q, ps2⟩
      · exact absurd hd hps1
      · rw [List.dropLast_cons₂]
        exact List.mem_cons_self _ _
    intro cur i idx
    obtain ⟨c, n1, rfl⟩ : ∃ c n1, n = c :: n1 := by
      rcases n with _ | ⟨c, n1⟩
      · exact absurd rfl hn
      · exact ⟨c, n1, rfl⟩
    have hc : c ≠ nul := fun hc => hnnul (hc ▸ List.mem_cons_self c n1)
    have hser : serWinPairs ((c :: n1, p) :: ps1) =
        c :: (n1 ++ nul :: (p ++ nul :: serWinPairs ps1)) := by
      simp [serWinPairs]
    rw [hser, selectCurFilter_cons, if_neg hc]
    have hafter : cstrNext (c :: (n1 ++ nul :: (p ++ nul :: serWinPairs ps1))) =
        p ++ nul :: serWinPairs ps1 := by
      have := cstrNext_append_nul (c :: n1) (p ++ nul :: serWinPairs ps1) hnnul
      simpa using this
    rw [hafter]
    rcases hp : p with _ | ⟨q, p1⟩
    · have hps1 : ps1 = [] := by
        by_contra hne
        exact hplast hne hp
      subst hps1
      rw [if_pos (by simp)]
      rcases eq_or_ne i idx with hi | hi
      · rw [if_pos hi, if_pos (by simp only [List.length_cons, List.length_nil]; omega)]
        subst hi
        simp [serWinPairs, Nat.sub_self]
      · rw [if_neg hi, if_neg (by simp only [List.length_cons, List.length_nil]; omega)]
    · have hq : q ≠ nul := fun hqe => (hp ▸ hpnul) (hqe ▸ List.mem_cons_self q p1)
      rw [if_neg (by simp [hq])]
      have hafter2 : cstrNext ((q :: p1) ++ nul :: serWinPairs ps1) =
          serWinPairs ps1 := cstrNext_append_nul _ _ (hp ▸ hpnul)
      rw [hafter2, ih hwf1]
      rcases eq_or_ne i idx with hi | hi
      · subst hi
        rw [if_neg (by omega), if_pos rfl,
          if_pos (by simp only [List.length_cons, List.length_nil]; omega)]
        simp [serWinPairs, hp, Nat.sub_self]
      · rw [if_neg hi]
        by_cases hrange : i + 1 ≤ idx ∧ idx < i + 1 + ps1.length
        · rw [if_pos hrange, if_pos (by simp only [List.length_cons, List.length_nil]; omega)]
          have hdrop : ((c :: n1, q :: p1) :: ps1).drop (idx - i) =
              ps1.drop (idx - (i + 1)) := by
            have : idx - i = (idx - (i + 1)) + 1 := by omega
            rw [this, List.drop_succ_cons]
          rw [hdrop]
        · rw [if_neg hrange, if_neg (by simp only [List.length_cons, List.length_nil]; omega)]

/-- C4: for a non-empty well-formed Windows filter buffer, the emitted
`current_filter` entry is the encoding of the `filterIndex`-th pair
(1-based); index 0 or out of range falls back to the first pair; a pair
with an empty pattern is encoded as the wildcard filter carrying the
pair's name. -/
theorem C4_win_current_filter (ps : List (List Char × List Char)) (idx : Nat)
    (hne : ps ≠ []) (hwf : WinPairsWF ps) :
    winCurrentFilterEntry (serWinPairs ps) idx =
      some (encodeWinPair (ps.getD (effWinIndex idx ps.length - 1) ([], []))) := by
  obtain ⟨⟨n, p⟩, ps1, rfl⟩ : ∃ pr ps1, ps = pr :: ps1 := by
    rcases ps with _ | ⟨pr, ps1⟩
    · exact absurd rfl hne
    · exact ⟨pr, ps1, rfl⟩
  have hhead := hwf.1 (n, p) (List.mem_cons_self _ _)
  obtain ⟨c0, n1, rfl⟩ : ∃ c0 n1, n = c0 :: n1 := by
    rcases n with _ | ⟨c0, n1⟩
    · exact absurd rfl hhead.1
    · exact ⟨c0, n1, rfl⟩
  have hc0 : c0 ≠ nul := fun hc => hhead.2.1 (hc ▸ List.mem_cons_self c0 n1)
  set ps := (c0 :: n1, p) :: ps1 with hps
  have heff : effWinIndex idx ps.length - 1 < ps.length := by
    unfold effWinIndex
    split
    · omega
    · simp [hps]
  -- the walk lands on the pair at index eff - 1
  have hwalk : selectCurFilter (serWinPairs ps) (serWinPairs ps) 1 idx =
      serWinPairs (ps.drop (effWinIndex idx ps.length - 1)) := by
    rw [selectCurFilter_ser ps hwf]
    unfold effWinIndex
    by_cases hin : 1 ≤ idx ∧ idx ≤ ps.length
    · rw [if_pos (by omega), if_pos hin]
    · rw [if_neg (by omega), if_neg hin]
      simp
  obtain ⟨prE, restE, hdropE⟩ :
      ∃ prE restE, ps.drop (effWinIndex idx ps.length - 1) = prE :: restE := by
    rcases hd : ps.drop (effWinIndex idx ps.length - 1) with _ | ⟨prE, restE⟩
    · have : ps.length ≤ effWinIndex idx ps.length - 1 := by
        rw [← List.drop_eq_nil_iff_le]
        exact hd
      omega
    · exact ⟨prE, restE, rfl⟩
  have hgetD : ps.getD (effWinIndex idx ps.length - 1) ([], []) = prE := by
    have h2 := List.drop_eq_getElem_cons heff
    rw [hdropE] at h2
    injection h2 with h3 h4
    rw [List.getD_eq_getElem ps ([], []) heff, ← h3]
  have hprE := hwf.1 prE (by
    have : prE ∈ ps.drop (effWinIndex idx ps.length - 1) := by
      rw [hdropE]; exact List.mem_cons_self _ _
    exact List.mem_of_mem_drop this)
  obtain ⟨nE, pE⟩ := prE
  have hserE : serWinPairs ((nE, pE) :: restE) =
      nE ++ nul :: (pE ++ nul :: serWinPairs restE) := by simp [serWinPairs]
  -- unfold winCurrentFilterEntry on the cons buffer
  have hbuf : serWinPairs ps =
      c0 :: (n1 ++ nul :: (p ++ nul :: serWinPairs ps1)) := by
    simp [hps, serWinPairs]
  rw [winCurrentFilterEntry.eq_def, hbuf]
  simp only [if_neg hc0]
  rw [← hbuf, hwalk, hdropE, hserE]
  have hcs : cstr (nE ++ nul :: (pE ++ nul :: serWinPairs restE)) = nE :=
    cstr_append_nul _ _ hprE.2.1
  have hcn : cstrNext (nE ++ nul :: (pE ++ nul :: serWinPairs restE)) =
      pE ++ nul :: serWinPairs restE :=
    cstrNext_append_nul _ _ hprE.2.1
  rw [hcs, hcn, hgetD]
  rcases hpE : pE with _ | ⟨qE, pE1⟩
  · rw [if_pos (by simp), encodeWinPair]
    simp
  · have hqE : qE ≠ nul :=
      fun hq => (hpE ▸ hprE.2.2) (hq ▸ List.mem_cons_self qE pE1)
    rw [if_neg (by simp [hqE]), encodeWinPair]
    have : cstr ((qE :: pE1) ++ nul :: serWinPairs restE) = qE :: pE1 :=
      cstr_append_nul _ _ (hpE ▸ hprE.2.2)
    rw [this]
    simp

/-- Closed witness for C4 at the buffer `"All" NUL "*.*" NUL "Text" NUL
"*.TXT" NUL NUL` with `filterIndex = 2`. -/
theorem C4_win_current_filter_witness :
    ([("All".toList, "*.*".toList), ("Text".toList, "*.TXT".toList)] :
        List (List Char × List Char)) ≠ [] ∧
    WinPairsWF [("All".toList, "*.*".toList), ("Text".toList, "*.TXT".toList)] ∧
    winCurrentFilterEntry
        (serWinPairs [("All".toList, "*.*".toList), ("Text".toList, "*.TXT".toList)]) 2 =
      some (encodeWinPair
        (([("All".toList, "*.*".toList), ("Text".toList, "*.TXT".toList)] :
            List (List Char × List Char)).getD
          (effWinIndex 2 2 - 1) ([], []))) :=
  ⟨by decide, by decide,
   C4_win_current_filter _ 2 (by decide) (by decide)⟩

theorem spanEqCstr_iff (a b : List Char) : spanEqCstr a b = true ↔ a = b := by
  induction a generalizing b with
  | nil =>
    cases b <;> simp [spanEqCstr]
  | cons x xs ih =>
    cases b with
    | nil => simp [spanEqCstr]
    | cons y ys =>
      show (if x ≠ y then false else spanEqCstr xs ys) = true ↔ _
      by_cases hxy : x = y
      · subst hxy
        simp [ih]
      · simp [hxy]

theorem splitSegsGo_no_sep (sep : Char) (e : List Char) (h : sep ∉ e) :
    ∀ acc, splitSegsGo sep acc e = [acc.reverse ++ e] := by
  induction e with
  | nil => intro acc; simp [splitSegsGo]
  | cons c e1 ih =>
    intro acc
    have hc : c ≠ sep := fun hc => h (hc ▸ List.mem_cons_self c e1)
    have he1 : sep ∉ e1 := fun hm => h (List.mem_cons_of_mem c hm)
    rw [splitSegsGo]
    by_cases hacc : acc = []
    · rw [if_pos hacc, ih he1 [c], hacc]
      simp
    · rw [if_neg hacc, if_neg hc, ih he1 (c :: acc)]
      simp

theorem splitSegsGo_append_sep (sep : Char) (e : List Char) (h : sep ∉ e)
    (tail : List Char) :
    ∀ acc, acc ≠ [] ∨ e ≠ [] →
      splitSegsGo sep acc (e ++ sep :: tail) =
        (acc.reverse ++ e) :: splitSegsGo sep [] tail := by
  induction e with
  | nil =>
    intro acc hor
    have hacc : acc ≠ [] := hor.resolve_right (fun hh => hh rfl)
    rw [List.nil_append, splitSegsGo, if_neg hacc, if_pos rfl]
    simp
  | cons c e1 ih =>
    intro acc _
    have hc : c ≠ sep := fun hc => h (hc ▸ List.mem_cons_self c e1)
    have he1 : sep ∉ e1 := fun hm => h (List.mem_cons_of_mem c hm)
    rw [List.cons_append, splitSegsGo]
    by_cases hacc : acc = []
    · rw [if_pos hacc, ih he1 [c] (Or.inl (by simp)), hacc]
      simp
    · rw [if_neg hacc, if_neg hc, ih he1 (c :: acc) (Or.inl (by simp))]
      simp

theorem splitSegsC_sepJoin (sep : Char) (exts : List (List Char))
    (hne : exts ≠ []) (hwf : ∀ e ∈ exts, e ≠ [] ∧ sep ∉ e) :
    splitSegsC sep (sepJoin sep exts) = exts := by
  induction exts with
  | nil => exact absurd rfl hne
  | cons e rest ih =>
    have he := hwf e (List.mem_cons_self _ _)
    rcases rest with _ | ⟨e2, rest2⟩
    · rw [show sepJoin sep [e] = e from rfl]
      unfold splitSegsC
      rw [splitSegsGo_no_sep sep e he.2]
      simp
    · rw [show sepJoin sep (e :: e2 :: rest2) = e ++ sep :: sepJoin sep (e2 :: rest2)
        from rfl]
      unfold splitSegsC
      rw [splitSegsGo_append_sep sep e he.2 _ [] (Or.inr he.1)]
      rw [show splitSegsGo sep [] (sepJoin sep (e2 :: rest2)) =
        splitSegsC sep (sepJoin sep (e2 :: rest2)) from rfl]
      rw [ih (by simp) (fun x hx => hwf x (List.mem_cons_of_mem _ hx))]
      simp

theorem sepSplit_no_sep (sep : Char) (e : List Char) (h : sep ∉ e) :
    sepSplit sep e = [e] := by
  induction e with
  | nil => rfl
  | cons c e1 ih =>
    have hc : c ≠ sep := fun hc => h (hc ▸ List.mem_cons_self c e1)
    have he1 : sep ∉ e1 := fun hm => h (List.mem_cons_of_mem c hm)
    rw [sepSplit]
    simp only [ih he1, if_neg hc]

theorem sepSplit_append_sep (sep : Char) (e : List Char) (h : sep ∉ e)
    (tail : List Char) :
    sepSplit sep (e ++ sep :: tail) = e :: sepSplit sep tail := by
  induction e with
  | nil =>
    rw [List.nil_append, sepSplit]
    simp
  | cons c e1 ih =>
    have hc : c ≠ sep := fun hc => h (hc ▸ List.mem_cons_self c e1)
    have he1 : sep ∉ e1 := fun hm => h (List.mem_cons_of_mem c hm)
    rw [List.cons_append, sepSplit]
    simp only [ih he1, if_neg hc]

theorem sepSplit_sepJoin (sep : Char) (exts : List (List Char))
    (hne : exts ≠ []) (hwf : ∀ e ∈ exts, e ≠ [] ∧ sep ∉ e) :
    sepSplit sep (sepJoin sep exts) = exts := by
  induction exts with
  | nil => exact absurd rfl hne
  | cons e rest ih =>
    have he := hwf e (List.mem_cons_self _ _)
    rcases rest with _ | ⟨e2, rest2⟩
    · rw [show sepJoin sep [e] = e from rfl, sepSplit_no_sep sep e he.2]
    · rw [show sepJoin sep (e :: e2 :: rest2) = e ++ sep :: sepJoin sep (e2 :: rest2)
        from rfl]
      rw [sepSplit_append_sep sep e he.2]
      rw [ih (by simp) (fun x hx => hwf x (List.mem_cons_of_mem _ hx))]

theorem find?_congr_mem {α : Type} (l : List α) (p q : α → Bool)
    (h : ∀ x ∈ l, p x = q x) : l.find? p = l.find? q := by
  induction l with
  | nil => rfl
  | cons x xs ih =>
    rw [List.find?_cons, List.find?_cons, h x (List.mem_cons_self _ _)]
    cases q x
    · exact ih (fun y hy => h y (List.mem_cons_of_mem _ hy))
    · rfl

/-- C2: for a save dialog with a non-empty well-formed native filter list
and a defaultName containing a dot, the emitted `current_filter` entry is
the encoding of the first filter whose comma-separated extensions contain
the defaultName's extension (byte-for-byte), and the wildcard entry
(`"All files"`, single pattern `*`) when no filter matches. -/
theorem C2_save_current_filter (filterList : List NFilterItem) (dn : List Char)
    (hne : filterList ≠ []) (hdot : '.' ∈ dn)
    (hwf : ∀ f ∈ filterList, WellFormedSpec f.spec) :
    saveCurrentFilterEntry filterList (some dn) =
      some (match filterList.find?
          (fun f => decide (claimExtnOf dn ∈ sepSplit ',' f.spec)) with
        | some f => AppendSingleFilterN f
        | none => AppendWildcardFilter none) := by
  unfold saveCurrentFilterEntry
  rw [if_neg hne]
  have hext : (some dn).bind defaultNameExtn =
      if claimExtnOf dn = [] then none else some (claimExtnOf dn) := rfl
  rw [hext]
  by_cases he : claimExtnOf dn = []
  · rw [if_pos he]
    have hfind : filterList.find?
        (fun f => decide (claimExtnOf dn ∈ sepSplit ',' f.spec)) = none := by
      rw [List.find?_eq_none]
      intro f hf
      obtain ⟨exts, hne2, hwfe, hspec⟩ := hwf f hf
      rw [hspec, sepSplit_sepJoin ',' exts hne2
        (fun e hh => ⟨(hwfe e hh).1, (hwfe e hh).2.1⟩), he]
      simp only [decide_eq_true_eq]
      intro hmem
      exact (hwfe [] hmem).1 rfl
    rw [hfind]
  · rw [if_neg he]
    have hcong : filterList.find?
        (fun f => checkExtnMatches f.spec (claimExtnOf dn)) =
        filterList.find?
          (fun f => decide (claimExtnOf dn ∈ sepSplit ',' f.spec)) := by
      apply find?_congr_mem
      intro f hf
      obtain ⟨exts, hne2, hwfe, hspec⟩ := hwf f hf
      have hw2 : ∀ e ∈ exts, e ≠ [] ∧ ',' ∉ e :=
        fun e hh => ⟨(hwfe e hh).1, (hwfe e hh).2.1⟩
      rw [hspec]
      unfold checkExtnMatches
      rw [splitSegsC_sepJoin ',' exts hne2 hw2, sepSplit_sepJoin ',' exts hne2 hw2]
      by_cases hm : claimExtnOf dn ∈ exts
      · have hany : (exts.any fun seg => spanEqCstr seg (claimExtnOf dn)) = true :=
          List.any_eq_true.2 ⟨claimExtnOf dn, hm, (spanEqCstr_iff _ _).2 rfl⟩
        rw [hany, decide_eq_true hm]
      · have hany : (exts.any fun seg => spanEqCstr seg (claimExtnOf dn)) = false := by
          rw [List.any_eq_false]
          intro x hx hc
          exact hm ((spanEqCstr_iff _ _).1 hc ▸ hx)
        rw [hany, decide_eq_false hm]
    dsimp only
    rw [hcong]

/-- Closed witness for C2: filter list `[("Src", "cpp,c")]` with
defaultName `"x.cpp"`. -/
theorem C2_save_current_filter_witness :
    ([⟨"Src".toList, "cpp,c".toList⟩] : List NFilterItem) ≠ [] ∧
    '.' ∈ "x.cpp".toList ∧
    saveCurrentFilterEntry [⟨"Src".toList, "cpp,c".toList⟩]
        (some "x.cpp".toList) =
      some (match ([⟨"Src".toList, "cpp,c".toList⟩] : List NFilterItem).find?
          (fun f => decide (claimExtnOf "x.cpp".toList ∈ sepSplit ',' f.spec)) with
        | some f => AppendSingleFilterN f
        | none => AppendWildcardFilter none) :=
  ⟨by decide, by decide,
   C2_save_current_filter _ _ (by decide) (by decide)
     (fun f hf => by
        rw [List.mem_singleton] at hf
        subst hf
        exact ⟨["cpp".toList, "c".toList], by decide, by decide, by decide⟩)⟩

theorem strrchrIdx_not_mem (c : Char) (l : List Char) (h : c ∉ l) :
    strrchrIdx c l = none := by
  induction l with
  | nil => rfl
  | cons x xs ih =>
    have hx : x ≠ c := fun hx => h (hx ▸ List.mem_cons_self x xs)
    have hxs : c ∉ xs := fun hm => h (List.mem_cons_of_mem x hm)
    rw [strrchrIdx, ih hxs, if_neg hx]

theorem strrchrIdx_last (c : Char) (xs ys : List Char) (h : c ∉ ys) :
    strrchrIdx c (xs ++ c :: ys) = some xs.length := by
  induction xs with
  | nil =>
    rw [List.nil_append, strrchrIdx, strrchrIdx_not_mem c ys h, if_pos rfl]
    rfl
  | cons x xs1 ih =>
    rw [List.cons_append, strrchrIdx, ih]
    rfl

theorem takeWhile_ne_append (c : Char) (zs ws : List Char) (h : c ∉ zs) :
    (zs ++ c :: ws).takeWhile (fun x => x ≠ c) = zs := by
  induction zs with
  | nil => simp
  | cons z zs1 ih =>
    have hz : z ≠ c := fun hz => h (hz ▸ List.mem_cons_self z zs1)
    have hzs : c ∉ zs1 := fun hm => h (List.mem_cons_of_mem z hm)
    rw [List.cons_append, List.takeWhile_cons, if_pos (by simp [hz]), ih hzs]

theorem takeWhile_ne_all (c : Char) (l : List Char) (h : c ∉ l) :
    l.takeWhile (fun x => x ≠ c) = l := by
  induction l with
  | nil => rfl
  | cons x xs ih =>
    have hx : x ≠ c := fun hx => h (hx ▸ List.mem_cons_self x xs)
    have hxs : c ∉ xs := fun hm => h (List.mem_cons_of_mem x hm)
    rw [List.takeWhile_cons, if_pos (by simp [hx]), ih hxs]

/-- Split a list at the LAST occurrence of a member. -/
theorem exists_last_split (c : Char) (q : List Char) (h : c ∈ q) :
    ∃ xs ys, q = xs ++ c :: ys ∧ c ∉ ys := by
  induction q with
  | nil => simp at h
  | cons x q1 ih =>
    by_cases hq1 : c ∈ q1
    · obtain ⟨xs, ys, heq, hys⟩ := ih hq1
      exact ⟨x :: xs, ys, by rw [heq, List.cons_append], hys⟩
    · have hx : x = c := by
        rcases List.mem_cons.1 h with h1 | h1
        · exact h1.symm
        · exact absurd h1 hq1
      exact ⟨[], q1, by rw [hx, List.nil_append], hq1⟩

theorem list_set_append_mid (d b : List Char) (c x : Char) :
    (d ++ c :: b).set d.length x = d ++ x :: b := by
  induction d with
  | nil => rfl
  | cons y d1 ih =>
    simp only [List.cons_append, List.length_cons, List.set_cons_succ, ih]

/-- `copyFileInfo` on a URI built by `ConvertToUriPath` from a
percent-free path: the prefix strips and the decode is the identity. -/
theorem copyFileInfo_decode (policy : FilePathPolicy) (p : List Char)
    (hpct : '%' ∉ p) :
    copyFileInfo policy (ConvertToUriPath p) =
      match policy with
      | .FullPath => some (p ++ [nul])
      | .Dirname => (glibcDirnameCut p).map (fun cut => p.set cut nul ++ [nul])
      | .Basename => (xpgBasenameIdx p).map (fun i => p.drop i ++ [nul]) := by
  unfold copyFileInfo ConvertToUriPath
  have hpre : FILE_URI_PREFIX_STR.isPrefixOf (FILE_URI_PREFIX_STR ++ p) = true :=
    isPrefixOf_append_self _ _
  rw [if_pos hpre]
  simp only [List.drop_left, TryUriDecodeLen_no_pct p hpct,
    UriDecodeUnchecked_no_pct p hpct]

/-- For a first path of the plain form `d ++ "/" ++ b` (`d` nonempty and
not ending in `'/'`, `b` nonempty and slash-free) glibc `dirname` writes
its NUL exactly over that separating slash. -/
theorem glibcDirnameCut_plain (d b : List Char) (hd : d ≠ [])
    (hdl : d.getLast? ≠ some '/') (hb : b ≠ []) (hbs : '/' ∉ b) :
    glibcDirnameCut (d ++ '/' :: b) = some d.length := by
  have hls : strrchrIdx '/' (d ++ '/' :: b) = some d.length :=
    strrchrIdx_last '/' d b hbs
  have hlen : (d ++ '/' :: b).length = d.length + 1 + b.length := by
    simp [List.length_append]
    omega
  have hback : backScanSlashes (d ++ '/' :: b) d.length = d.length := by
    unfold backScanSlashes
    have htake : (d ++ '/' :: b).take d.length = d := List.take_left d _
    rw [htake]
    have : d.reverse.takeWhile (fun x => x = '/') = [] := by
      rcases hrev : d.reverse with _ | ⟨y, t⟩
      · rfl
      · have hy : y ≠ '/' := by
          intro hy
          apply hdl
          rw [← List.head?_reverse, hrev, hy]
          rfl
        rw [List.takeWhile_cons, if_neg (by simp [hy])]
    rw [this]
    simp
  have hcond : ¬(d.length ≠ 0 ∧ d.length + 1 = (d ++ '/' :: b).length) := by
    rw [hlen]
    intro hcon
    have := hcon.2
    have hblen : 0 < b.length := List.length_pos.2 hb
    omega
  have hdne : d.length ≠ 0 := fun hh => hd (List.length_eq_zero.1 hh)
  unfold glibcDirnameCut
  rw [hls]
  dsimp only
  rw [if_neg hcond]
  dsimp only
  rw [hback, if_neg hdne]

/-- For a nonempty path not ending in `'/'`, the `basename` pointer
offset leads to the spec-side basename (the suffix after the last
slash). -/
theorem xpgBasenameIdx_plain (q : List Char) (hq : q ≠ [])
    (hql : q.getLast? ≠ some '/') :
    ∃ i, xpgBasenameIdx q = some i ∧ q.drop i = posixBasename q := by
  unfold xpgBasenameIdx
  rw [if_neg (by
    rintro (h1 | h1)
    · exact hq h1
    · exact hql h1)]
  by_cases hs : '/' ∈ q
  · obtain ⟨xs, ys, rfl, hys⟩ := exists_last_split '/' q hs
    refine ⟨xs.length + 1, ?_, ?_⟩
    · rw [strrchrIdx_last '/' xs ys hys]
    · have hdrop : (xs ++ '/' :: ys).drop (xs.length + 1) = ys := by
        have h1 : xs ++ '/' :: ys = (xs ++ ['/']) ++ ys := by simp
        have h2 : xs.length + 1 = (xs ++ ['/']).length := by simp
        rw [h1, h2, List.drop_left]
      rw [hdrop]
      unfold posixBasename
      have hrev : (xs ++ '/' :: ys).reverse = ys.reverse ++ '/' :: xs.reverse := by
        simp
      rw [hrev, takeWhile_ne_append '/' ys.reverse xs.reverse (by simpa using hys),
        List.reverse_reverse]
  · refine ⟨0, ?_, ?_⟩
    · rw [strrchrIdx_not_mem '/' q hs]
    · rw [List.drop_zero]
      unfold posixBasename
      rw [takeWhile_ne_all '/' q.reverse (by simpa using hs), List.reverse_reverse]

theorem packBasenames_map (rest : List (List Char))
    (h : ∀ q ∈ rest, q ≠ [] ∧ q.getLast? ≠ some '/' ∧ nul ∉ q ∧ '%' ∉ q) :
    packBasenames (rest.map ConvertToUriPath) =
      some (rest.flatMap (fun q => posixBasename q ++ [nul])) := by
  induction rest with
  | nil => rfl
  | cons q rest1 ih =>
    have hq := h q (List.mem_cons_self _ _)
    obtain ⟨i, hidx, hdrop⟩ := xpgBasenameIdx_plain q hq.1 hq.2.1
    rw [List.map_cons]
    unfold packBasenames
    rw [copyFileInfo_decode .Basename q hq.2.2.2, hidx,
      ih (fun x hx => h x (List.mem_cons_of_mem _ hx))]
    simp [hdrop, List.flatMap_cons, List.append_assoc]

/-- C1 counterexample: with the two decoded paths `/home/u/a.c` and
`/home/u/b.c`, the buffer the code packs contains the basename of the
FIRST path as well (glibc `dirname` truncates the decoded buffer in
place and the source copies that whole buffer through its original
terminator), so it differs from the claim's predicted
`dirname(p1) NUL basename(p2) NUL NUL`. -/
theorem C1_multi_pack_counterexample :
    packMultiPathBuffer
        [ConvertToUriPath "/home/u/a.c".toList,
         ConvertToUriPath "/home/u/b.c".toList] =
      some ("/home/u".toList ++ nul :: "a.c".toList ++ nul ::
        ("b.c".toList ++ [nul, nul])) ∧
    claimPackedBuffer ["/home/u/a.c".toList, "/home/u/b.c".toList] =
      "/home/u".toList ++ nul :: ("b.c".toList ++ [nul, nul]) ∧
    packMultiPathBuffer
        [ConvertToUriPath "/home/u/a.c".toList,
         ConvertToUriPath "/home/u/b.c".toList] ≠
      some (claimPackedBuffer ["/home/u/a.c".toList, "/home/u/b.c".toList]) := by
  refine ⟨by decide, by decide, by decide⟩

/-- C1 amended: the N=1 case packs the single full decoded path with its
NUL plus the terminating NUL, exactly as claimed; for N ≥ 2 the buffer is
the decoded dirname of the first path, a NUL, then **the basename of the
first path** and a NUL (the in-place-truncated remainder of the first
path's buffer), and only then the basenames of the remaining paths, each
NUL-terminated, plus the extra trailing NUL.  Stated for first paths of
the plain form `dir/base`. -/
theorem C1_multi_pack_amended :
    (∀ u : List Char, nul ∉ u → '%' ∉ u →
      packMultiPathBuffer [ConvertToUriPath u] = some (u ++ [nul, nul])) ∧
    (∀ (d b : List Char) (rest : List (List Char)),
      d ≠ [] → d.getLast? ≠ some '/' → b ≠ [] → '/' ∉ b →
      '%' ∉ d → '%' ∉ b → rest ≠ [] →
      (∀ q ∈ rest, q ≠ [] ∧ q.getLast? ≠ some '/' ∧ nul ∉ q ∧ '%' ∉ q) →
      packMultiPathBuffer
          (ConvertToUriPath (d ++ '/' :: b) :: rest.map ConvertToUriPath) =
        some (d ++ nul :: b ++ nul ::
          (rest.flatMap (fun q => posixBasename q ++ [nul]) ++ [nul]))) := by
  constructor
  · intro u _ hpct
    show (copyFileInfo .FullPath (ConvertToUriPath u)).map (· ++ [nul]) = _
    rw [copyFileInfo_decode .FullPath u hpct]
    simp
  · intro d b rest hd hdl hb hbs hpd hpb hrne hrest
    rcases rest with _ | ⟨r, rest1⟩
    · exact absurd rfl hrne
    rw [List.map_cons]
    have hpct : '%' ∉ d ++ '/' :: b := by
      intro hm
      rcases List.mem_append.1 hm with hmm | hmm
      · exact hpd hmm
      · rcases List.mem_cons.1 hmm with hmm1 | hmm1
        · exact absurd hmm1.symm (by decide)
        · exact hpb hmm1
    unfold packMultiPathBuffer
    dsimp only
    rw [copyFileInfo_decode .Dirname (d ++ '/' :: b) hpct,
      glibcDirnameCut_plain d b hd hdl hb hbs]
    have hpack : packBasenames (ConvertToUriPath r :: rest1.map ConvertToUriPath) =
        some ((r :: rest1).flatMap (fun q => posixBasename q ++ [nul])) := by
      rw [← List.map_cons]
      exact packBasenames_map (r :: rest1) hrest
    rw [hpack]
    simp only [Option.map_some']
    rw [list_set_append_mid]
    simp [List.append_assoc]

/-- Closed witness for the amended C1 at the decoded paths
`/home/u/a.c` and `/home/u/b.c`. -/
theorem C1_multi_pack_amended_witness :
    ("/home/u".toList ≠ [] ∧ "a.c".toList ≠ [] ∧
      (["/home/u/b.c".toList] : List (List Char)) ≠ []) ∧
    packMultiPathBuffer
        (ConvertToUriPath ("/home/u".toList ++ '/' :: "a.c".toList) ::
          (["/home/u/b.c".toList].map ConvertToUriPath)) =
      some ("/home/u".toList ++ nul :: "a.c".toList ++ nul ::
        (["/home/u/b.c".toList].flatMap (fun q => posixBasename q ++ [nul]) ++
          [nul])) :=
  ⟨⟨by decide, by decide, by decide⟩,
   C1_multi_pack_amended.2 "/home/u".toList "a.c".toList ["/home/u/b.c".toList]
     (by decide) (by decide) (by decide) (by decide) (by decide) (by decide)
     (by decide)
     (fun q hq => by
        rw [List.mem_singleton] at hq
        subst hq
        exact ⟨by decide, by decide, by decide, by decide⟩)⟩

end NfdPortal
